import Mathlib

/-!
Verification model of the PDF search/highlight pipeline.

The development shallowly embeds the algorithmic core of the repository:

* `search_function.py` — `clean_text`, `word_level_similarity`,
  `calculate_distance`, and the single-term `search_documents` pipeline
  (exact substring stage, fuzzy stage, negation filter, date filter, sort);
* `co_occurance_search.py` — `search_documents_co_occurrence` (per-term
  whole-word exact matching, page grouping, distinct-term threshold,
  negation filter with its unresolved `calculate_distance` name, date
  filter, sort);
* `pdf_highlighter.py` — `highlight_search_results` (per-document render
  loop with per-item failure handling and temporary-file cleanup).

Embedding conventions:

* Text is `List Char`; Python's case-insensitive handling is modelled by
  mapping `Char.toLower` over both sides (ASCII corpus assumption).
* `pandas.read_csv` rows are modelled as fully materialised records with
  string `text`, integer `page_number`, an integer (parseable) `date`,
  and rational bounding-box coordinates (CSV floats are modelled as `ℚ`).
* `df['text'].str.contains(term, case=False)` interprets the unescaped
  term as a regex (pandas defaults to `regex=True`). The faithful model is
  `pdStrContains`, defined on the subset of patterns made of literal
  characters and the `.` wildcard (other metacharacters — quantifiers,
  classes, groups, anchors, escapes, including ill-formed patterns on
  which `re.compile` raises — are outside the modelled subset). For a
  term free of regex metacharacters the regex degenerates to
  case-insensitive substring containment (`containsCI`), which is the
  predicate the pipeline model uses; the agreement is proved
  (`pdStrContains_eq_containsCI`), so the pipeline model is faithful
  exactly on metacharacter-free terms.
* `rapidfuzz.fuzz.ratio` is the documented normalized Indel similarity
  `100 * (1 - dist / (len_a + len_b))` where `dist` is the edit distance
  with unit insertion/deletion cost and substitution cost 2; Python's
  `round` is round-half-to-even, which on naturals is `bankersDiv`.
  The exact rational value is used in place of the C double; the scores
  that arise here are rationals with small denominators.
* Exceptions are modelled with `Except`; `None` returns with `Option`.
-/

set_option linter.unusedVariables false

/-- Text is modelled as a list of characters. -/
abbrev Str := List Char

/-- Python `str.lower()` (ASCII model). -/
def lowerStr (s : Str) : Str := s.map Char.toLower

/-- Case-insensitive substring containment: the value of
`df['text'].str.contains(term, case=False, na=False)` at
`search_function.py:98` for a term free of regex metacharacters. The source
leaves the term unescaped under the pandas default `regex=True`, so for
metacharacter terms the code regex-interprets the term instead — see
`pdStrContains` for the faithful matcher and `pdStrContains_eq_containsCI`
for the agreement on metacharacter-free terms, the scope on which the
pipeline model below is faithful. -/
def containsCI (term text : Str) : Bool := decide (lowerStr term <:+: lowerStr text)

/-- The characters `re` treats specially outside character classes; a pattern
containing none of these is matched literally. -/
def reMetachars : Str :=
  [('.'), ('^'), ('$'), ('*'), ('+'), ('?'), ('\x7b'), ('\x7d'), ('['), (']'),
   ('|'), ('('), (')'), ('\\')]

/-- Whether `c` is a regex metacharacter. -/
def reMetachar (c : Char) : Bool := decide (c ∈ reMetachars)

/-- One token of the modelled regex subset: a literal character or the `.`
any-character wildcard. -/
inductive ReTok where
  | lit (c : Char)
  | dotAny
  deriving DecidableEq, Repr

/-- Tokenize a pattern of the modelled regex subset: `.` becomes the wildcard,
a non-metacharacter becomes a literal, and a pattern using any other
metacharacter (quantifiers, classes, groups, anchors, escapes — including the
ill-formed patterns on which `re.compile` raises `re.error`) is outside the
modelled subset (`none`). -/
def reTokens : Str → Option (List ReTok)
  | [] => some []
  | c :: rest =>
    if c = ('.') then (reTokens rest).map (fun ts => ReTok.dotAny :: ts)
    else if reMetachar c then none
    else (reTokens rest).map (fun ts => ReTok.lit c :: ts)

/-- The tokens match a prefix of `s`: literals compare case-insensitively
(`re.IGNORECASE`), and `.` matches any character except newline (no
`re.DOTALL`). -/
def reMatchPrefix : List ReTok → Str → Bool
  | [], _ => true
  | _ :: _, [] => false
  | ReTok.lit c :: ts, x :: xs => decide (x.toLower = c.toLower) && reMatchPrefix ts xs
  | ReTok.dotAny :: ts, x :: xs => decide (x ≠ ('\n')) && reMatchPrefix ts xs

/-- Models `re.search(pattern, text, re.IGNORECASE)` for a tokenized pattern of
the modelled subset: a match starting at some offset of `text`. -/
def reSearch (toks : List ReTok) (text : Str) : Bool :=
  (List.range (text.length + 1)).any (fun i => reMatchPrefix toks (text.drop i))

/-- Models `df['text'].str.contains(term, case=False, na=False)` at
`search_function.py:98` faithfully: the unescaped term is compiled as a regex
(pandas default `regex=True`); `none` when the term uses a regex feature
outside the modelled subset. -/
def pdStrContains (term text : Str) : Option Bool :=
  (reTokens term).map (fun toks => reSearch toks text)

/-- Python regex word character `\w` (ASCII model): letter, digit or underscore. -/
def isWordChar (c : Char) : Bool := c.isAlpha || c.isDigit || c = '_'

/-- Word-character test on an optional character; out-of-range counts as non-word. -/
def optWordChar : Option Char → Bool
  | none => false
  | some c => isWordChar c

/-- Python regex `\b`: position `i` of `s` is a word boundary iff exactly one of
the characters around it is a word character. -/
def wordBoundaryAt (s : Str) (i : ℕ) : Bool :=
  optWordChar (if i = 0 then none else s[i-1]?) != optWordChar s[i]?

/-- The pattern `\b term \b` (with `term` regex-escaped, `re.IGNORECASE`) matches
`s` at offset `i`. -/
def wholeWordAt (term s : Str) (i : ℕ) : Bool :=
  decide (lowerStr ((s.drop i).take term.length) = lowerStr term)
    && wordBoundaryAt s i && wordBoundaryAt s (i + term.length)

/-- Models `re.search(r'\b' + re.escape(term) + r'\b', s, re.IGNORECASE)`:
case-insensitive whole-word, word-boundary-anchored containment. -/
def containsWholeWord (term s : Str) : Bool :=
  (List.range (s.length + 1)).any (fun i => wholeWordAt term s i)

/-- Maximal runs of characters satisfying `p`; accumulator is
(current run, completed runs). -/
def splitRunsAux (p : Char → Bool) : Str → Str × List Str
  | [] => ([], [])
  | c :: rest =>
    let acc := splitRunsAux p rest
    if p c then (c :: acc.1, acc.2)
    else ([], if acc.1 = [] then acc.2 else acc.1 :: acc.2)

/-- The maximal nonempty runs of characters of `s` satisfying `p`, in order. -/
def splitRuns (p : Char → Bool) (s : Str) : List Str :=
  let acc := splitRunsAux p s
  if acc.1 = [] then acc.2 else acc.1 :: acc.2

/-- Models `clean_text` of `search_function.py`: replace every non-alphabetic
character by a space, collapse whitespace runs, and strip — equivalently, the
maximal alphabetic runs joined by single spaces. -/
def clean_text (s : Str) : Str := List.intercalate [(' ')] (splitRuns Char.isAlpha s)

/-- Python `str.split()` with no argument: maximal non-whitespace runs. -/
def pySplit (s : Str) : List Str := splitRuns (fun c => !c.isWhitespace) s

/-- Cost table of the Indel distance: unit insertions and deletions, substitution
counted as one deletion plus one insertion. -/
def indelCost : Levenshtein.Cost Char Char ℕ :=
  { delete := fun _ => 1, insert := fun _ => 1,
    substitute := fun a b => if a = b then 0 else 2 }

/-- The Indel distance underlying `rapidfuzz.fuzz.ratio`. -/
def indelDist (a b : Str) : ℕ := levenshtein indelCost a b

/-- Round-half-to-even of the fraction `a / b` (Python `round` on an exact
nonnegative rational): quotient, bumped when the remainder exceeds half, tie
broken to the even quotient. -/
def bankersDiv (a b : ℕ) : ℕ :=
  if 2 * (a % b) < b then a / b
  else if b < 2 * (a % b) then a / b + 1
  else if a / b % 2 = 0 then a / b else a / b + 1

/-- Models `round(fuzz.ratio(a, b))`: the normalized Indel similarity
`100 * (1 - dist / (len_a + len_b))` rounded half-to-even, with the rapidfuzz
convention that two empty strings score 100. -/
def fuzzRatioRounded (a b : Str) : ℕ :=
  if a.length + b.length = 0 then 100
  else bankersDiv (100 * (a.length + b.length - indelDist a b)) (a.length + b.length)

/-- Models `word_level_similarity` of `search_function.py`. -/
def word_level_similarity (search_term text : Str) : ℕ :=
  let clean_search := lowerStr (clean_text search_term)
  let words := pySplit (lowerStr (clean_text text))
  if clean_search ∈ words then 100
  else (words.map (fun w => fuzzRatioRounded clean_search w)).foldr max 0

/-- Round-half-to-even on an arbitrary rational (Python `round`). -/
def roundHalfEven (q : ℚ) : ℤ :=
  if q - ⌊q⌋ < 1/2 then ⌊q⌋
  else if 1/2 < q - ⌊q⌋ then ⌊q⌋ + 1
  else if ⌊q⌋ % 2 = 0 then ⌊q⌋ else ⌊q⌋ + 1

/-- Classical Levenshtein distance (unit insert/delete/substitute), used only to
state the spec's claimed scoring formula. -/
def levDist (a b : Str) : ℕ := levenshtein Levenshtein.defaultCost a b

/-- Follows the claim's words, for comparison with the code: the per-word score
`100 * (1 - distance / max(len_a, len_b, 1))` rounded to the nearest integer,
where `distance` is the edit distance. -/
def claimedWordScore (t w : Str) : ℤ :=
  round ((100 : ℚ) * (1 - (levDist t w : ℚ) / ((max (max t.length w.length) 1 : ℕ) : ℚ)))

/-- Follows the claim's words: the maximum of the claimed per-word scores over
the whitespace-delimited words of the normalized span text. -/
def claimedSimilarity (term text : Str) : ℤ :=
  ((pySplit (lowerStr (clean_text text))).map
    (fun w => claimedWordScore (lowerStr (clean_text term)) w)).foldr max 0

/-- One row of the positional-text CSV: a text span on a page with its bounding
box. Dates are modelled as already parsed integers (days); the claims under
study only use their order. Bounding-box coordinates are rationals (CSV floats). -/
structure TextRow where
  filename : Str
  page_number : ℤ
  text : Str
  bbx0 : ℚ
  bby0 : ℚ
  bbx1 : ℚ
  bby1 : ℚ
  date : ℤ
  deriving DecidableEq, Repr

/-- A row of the search-result frame: the span plus its similarity score.
`isExact` records which stage produced the row (the spec's `match_kind`);
it is determined by the row's text, so it adds no distinctions beyond the
frame's columns. -/
structure SearchMatch where
  row : TextRow
  similarity : ℕ
  isExact : Bool
  deriving DecidableEq, Repr

/-- Models `DataFrame.drop_duplicates()`: keep the first occurrence of each
distinct row. -/
def pdDedup {α : Type} [DecidableEq α] : List α → List α
  | [] => []
  | a :: l => a :: (pdDedup l).filter (fun b => decide (b ≠ a))

/-- Models the exact stage of `search_documents`: rows whose text contains the
term as a case-insensitive substring, annotated with similarity 100. -/
def exact_stage (corpus : List TextRow) (term : Str) : List SearchMatch :=
  (corpus.filter (fun r => containsCI term r.text)).map
    (fun r => { row := r, similarity := 100, isExact := true })

/-- Models the fuzzy stage of `search_documents`: the remaining rows scored by
`word_level_similarity` and kept when the score reaches the threshold. The
source processes the remaining rows in chunks of 10000 and concatenates the
per-chunk results; since mapping and filtering distribute over concatenation,
chunk boundaries do not change the result and are not modelled. -/
def fuzzy_stage (corpus : List TextRow) (term : Str) (thr : ℕ) : List SearchMatch :=
  ((corpus.filter (fun r => !containsCI term r.text)).map
    (fun r => { row := r, similarity := word_level_similarity term r.text,
                isExact := false })).filter
    (fun m => decide (thr ≤ m.similarity))

/-- Models `pd.concat([exact_matches, fuzzy_matches]).drop_duplicates()`. -/
def combined_matches (corpus : List TextRow) (term : Str) (thr : ℕ) : List SearchMatch :=
  pdDedup (exact_stage corpus term ++ fuzzy_stage corpus term thr)

/-- Squared Euclidean distance between two anchor points. -/
def distSq (x1 y1 x2 y2 : ℚ) : ℚ := (x2 - x1)^2 + (y2 - y1)^2

/-- Decides `calculate_distance(x1, y1, x2, y2) <= d` — the comparison the
negation loop performs on `math.sqrt((x2-x1)**2 + (y2-y1)**2)` — without
leaving the rationals: the square root is at most `d` iff `d` is nonnegative
and the squared distance is at most `d²`. -/
def calculate_distance_le (x1 y1 x2 y2 d : ℚ) : Bool :=
  decide (0 ≤ d ∧ distSq x1 y1 x2 y2 ≤ d^2)

/-- Strict comparison of a squared distance against the best (squared) distance
seen so far; `none` is the loop's initial `float('inf')`. -/
def distLtPrev (s : ℚ) : Option ℚ → Bool
  | none => true
  | some m => decide (s < m)

/-- One iteration of the inner negation loop of `search_documents`: state is
(`has_nearby_negation`, squared `min_distance`). -/
def negStep (negDist : ℚ) (m : TextRow) (st : Bool × Option ℚ) (occ : TextRow) :
    Bool × Option ℚ :=
  if calculate_distance_le m.bbx0 m.bby0 occ.bbx0 occ.bby0 negDist
      && distLtPrev (distSq m.bbx0 m.bby0 occ.bbx0 occ.bby0) st.2 then
    (true, some (distSq m.bbx0 m.bby0 occ.bbx0 occ.bby0))
  else st

/-- The negation loop's `has_nearby_negation` flag for one search result over
the same-file negation occurrences. -/
def hasNearbyNegation (negDist : ℚ) (m : TextRow) (occs : List TextRow) : Bool :=
  (occs.foldl (negStep negDist m) (false, none)).1

/-- Models the `negation_matches_dict`: for each distinct negation term, the
corpus rows whose text contains it as a whole word, in term-then-row order. -/
def negationOccurrences (corpus : List TextRow) (negTerms : List Str) :
    List (Str × TextRow) :=
  (pdDedup negTerms).flatMap (fun t =>
    (corpus.filter (fun r => containsWholeWord t r.text)).map (fun r => (t, r)))

/-- Models the negation-filtering block of `search_documents`: skipped when
there are no negation terms, no results, or no negation occurrences at all;
otherwise a result is kept iff the loop found no nearby same-file occurrence. -/
def negationFilter (corpus : List TextRow) (negTerms : List Str) (negDist : ℚ)
    (ms : List SearchMatch) : List SearchMatch :=
  if negTerms = [] ∨ ms = [] then ms
  else if negationOccurrences corpus negTerms = [] then ms
  else ms.filter (fun m => !hasNearbyNegation negDist m.row
    (((negationOccurrences corpus negTerms).filter
      (fun p => decide (p.2.filename = m.row.filename))).map (fun p => p.2)))

/-- Models the date-range filter (`date >= start`, `date <= end`, both optional,
inclusive). -/
def dateFilterBy {α : Type} (dateOf : α → ℤ) (sd ed : Option ℤ) (l : List α) : List α :=
  let l1 := match sd with
    | none => l
    | some d => l.filter (fun x => decide (d ≤ dateOf x))
  match ed with
  | none => l1
  | some d => l1.filter (fun x => decide (dateOf x ≤ d))

/-- The sort key of the single-term pipeline:
`sort_values(by=['date', 'page_number'], ascending=[True, True])`. -/
def singleSortKey (m : SearchMatch) : ℤ ×ₗ ℤ := toLex (m.row.date, m.row.page_number)

/-- The row order the single-term pipeline sorts by. -/
def singleSortLe (a b : SearchMatch) : Prop := singleSortKey a ≤ singleSortKey b

instance : DecidableRel singleSortLe :=
  fun a b => inferInstanceAs (Decidable (singleSortKey a ≤ singleSortKey b))

instance : IsTotal SearchMatch singleSortLe :=
  ⟨fun a b => le_total (singleSortKey a) (singleSortKey b)⟩

instance : IsTrans SearchMatch singleSortLe :=
  ⟨fun a b c hab hbc => le_trans hab hbc⟩

/-- Models `search_documents` of `search_function.py` (with the CSV already
loaded as `corpus`): exact stage, fuzzy stage, duplicate drop, negation filter,
empty check, date filter, empty check, final sort. The sort is modelled by a
stable sort with the source's key; the source's quicksort orders key-ties in an
implementation-defined way. -/
def search_documents (corpus : List TextRow) (search_term : Str)
    (similarity_threshold : ℕ) (negation_terms : List Str) (negation_distance : ℚ)
    (start_date end_date : Option ℤ) : Option (List SearchMatch) :=
  let results := negationFilter corpus negation_terms negation_distance
    (combined_matches corpus search_term similarity_threshold)
  if results = [] then none
  else
    let results2 := dateFilterBy (fun m => m.row.date) start_date end_date results
    if results2 = [] then none
    else some (List.insertionSort singleSortLe results2)

/-- Models the per-term match set of `search_documents_co_occurrence`: the rows
whose text contains the term as a case-insensitive whole word. This is the only
matching stage of the multi-term path. -/
def exactTermMatches (corpus : List TextRow) (t : Str) : List TextRow :=
  corpus.filter (fun r => containsWholeWord t r.text)

/-- Models `unique_pages`: the (filename, page) pairs carrying at least one term
match. The source collects them in a Python set; the model fixes first-insertion
order, which downstream sorting makes irrelevant. -/
def pagesWithAnyTerm (corpus : List TextRow) (terms : List Str) : List (Str × ℤ) :=
  pdDedup ((pdDedup terms).flatMap (fun t =>
    (exactTermMatches corpus t).map (fun r => (r.filename, r.page_number))))

/-- Models `terms_present` for a page: the distinct query terms with at least
one match on that page, in query order. -/
def termsPresentOn (corpus : List TextRow) (terms : List Str) (f : Str) (p : ℤ) :
    List Str :=
  (pdDedup terms).filter (fun t =>
    (exactTermMatches corpus t).any
      (fun r => decide (r.filename = f) && decide (r.page_number = p)))

/-- Models `qualifying_pages`: pages where the count of distinct present terms
reaches `min_terms_required`. -/
def qualifyingPages (corpus : List TextRow) (terms : List Str) (minReq : ℕ) :
    List (Str × ℤ) :=
  (pagesWithAnyTerm corpus terms).filter (fun fp =>
    decide (minReq ≤ (termsPresentOn corpus terms fp.1 fp.2).length))

/-- A row of the co-occurrence result frame: the span, the term it matched
(`search_term`), and the page's distinct present terms (`co_occurring_terms`;
the `co_occurring_terms_count` column is this list's length). -/
structure CoMatch where
  row : TextRow
  search_term : Str
  coTerms : List Str
  deriving DecidableEq, Repr

/-- Models the collection of all matches from qualifying pages, with the
co-occurrence columns attached. -/
def co_matches (corpus : List TextRow) (terms : List Str) (minReq : ℕ) :
    List CoMatch :=
  (qualifyingPages corpus terms minReq).flatMap (fun fp =>
    (termsPresentOn corpus terms fp.1 fp.2).flatMap (fun t =>
      ((exactTermMatches corpus t).filter
        (fun r => decide (r.filename = fp.1) && decide (r.page_number = fp.2))).map
        (fun r => { row := r, search_term := t,
                    coTerms := termsPresentOn corpus terms fp.1 fp.2 })))

/-- The unhandled Python exception the co-occurrence pipeline can raise. -/
inductive PyRunError where
  | nameError
  deriving DecidableEq, Repr

instance {ε α : Type} [DecidableEq ε] [DecidableEq α] : DecidableEq (Except ε α) :=
  fun a b =>
    match a, b with
    | .error e, .error f =>
      if h : e = f then isTrue (by rw [h])
      else isFalse (by intro hc; injection hc with h2; exact h h2)
    | .error _, .ok _ => isFalse (by intro hc; exact Except.noConfusion hc)
    | .ok _, .error _ => isFalse (by intro hc; exact Except.noConfusion hc)
    | .ok x, .ok y =>
      if h : x = y then isTrue (by rw [h])
      else isFalse (by intro hc; injection hc with h2; exact h h2)

/-- The sort key of the co-occurrence pipeline:
`sort_values(by=['filename', 'page_number', 'co_occurring_terms_count',
'search_term'], ascending=[True, True, False, True])` — the descending count
key is encoded by negation. -/
def coSortKey (a : CoMatch) : (Str ×ₗ (ℤ ×ₗ (ℤ ×ₗ Str))) :=
  toLex (a.row.filename, toLex (a.row.page_number,
    toLex (-(a.coTerms.length : ℤ), a.search_term)))

/-- The row order the co-occurrence pipeline sorts by. -/
def coSortLe (a b : CoMatch) : Prop := coSortKey a ≤ coSortKey b

instance : DecidableRel coSortLe :=
  fun a b => inferInstanceAs (Decidable (coSortKey a ≤ coSortKey b))

instance : IsTotal CoMatch coSortLe :=
  ⟨fun a b => le_total (coSortKey a) (coSortKey b)⟩

instance : IsTrans CoMatch coSortLe :=
  ⟨fun a b c hab hbc => le_trans hab hbc⟩

/-- Models `search_documents_co_occurrence` (CSV already loaded as `corpus`).
The negation-filtering loop of the source calls `calculate_distance`, a name
neither defined in nor imported into `co_occurance_search.py`; the model
therefore raises `NameError` exactly when the loop reaches a distance
computation, i.e. when some pre-negation result row shares its filename with
some negation-term occurrence. When the loop completes without reaching a
distance computation, no row has a same-file occurrence and every row is kept. -/
def search_documents_co_occurrence (corpus : List TextRow) (terms : List Str)
    (min_terms_required : ℕ) (negation_terms : List Str) (negation_distance : ℚ)
    (start_date end_date : Option ℤ) : Except PyRunError (Option (List CoMatch)) :=
  if terms.length < min_terms_required then .ok none
  else
    let anns := co_matches corpus terms min_terms_required
    if qualifyingPages corpus terms min_terms_required = [] then .ok none
    else
      let proceed : List CoMatch → Except PyRunError (Option (List CoMatch)) := fun res =>
        if res = [] then .ok none
        else
          let res2 := dateFilterBy (fun a => a.row.date) start_date end_date res
          if res2 = [] then .ok none
          else .ok (some (List.insertionSort coSortLe res2))
      if negation_terms = [] ∨ anns = [] then proceed anns
      else if negationOccurrences corpus negation_terms = [] then proceed anns
      else if anns.any (fun a => (negationOccurrences corpus negation_terms).any
          (fun p => decide (p.2.filename = a.row.filename))) then .error .nameError
      else proceed anns

/-- Outcome of processing one source document in the render loop. -/
inductive DocOutcome where
  | missing
  | openFail
  | appendFail
  | ok
  deriving DecidableEq, Repr

/-- Python `filename.replace(' ', '_')` on one character. -/
def replaceSpace (c : Char) : Char := if c = (' ') then ('_') else c

/-- Python `s.replace('.pdf', '')`: remove the occurrences of `.pdf`,
scanning left to right. -/
def removeDotPdf : Str → Str
  | a :: b :: c :: d :: rest =>
    if [a, b, c, d] = ((".pdf").toList) then removeDotPdf rest
    else a :: removeDotPdf (b :: c :: d :: rest)
  | s => s

/-- Models the temporary file name
`f"_tmp_{filename.replace(' ', '_').replace(',', '').replace('.pdf', '')}.pdf"`. -/
def tempName (filename : Str) : Str :=
  (("_tmp_").toList) ++
    removeDotPdf ((filename.map replaceSpace).filter (fun c => decide (c ≠ (',')))) ++
    ((".pdf").toList)

/-- Models the glob pattern `_tmp_*.pdf` on a file name in the working
directory. -/
def isTmpName (f : Str) : Bool :=
  decide (((("_tmp_").toList) <+: f) ∧ ((((".pdf").toList) <:+ f) ∧ 9 ≤ f.length))

/-- State of the render loop: counters, the tracked temporary files, and the
files present in the working directory. -/
structure RenderSt where
  processed : ℕ
  highlighted : ℕ
  temps : List Str
  files : List Str
  deriving Repr

/-- Models the per-document loop of `highlight_search_results`: missing and
failing documents are skipped; a successful document contributes one page, its
highlight count, and a temporary file; a document that fails after its
temporary file was saved still leaves (and tracks) that file. -/
def render_loop (rows : List TextRow) (env : Str → DocOutcome) :
    List Str → RenderSt → RenderSt
  | [], st => st
  | f :: fs, st =>
    render_loop rows env fs
      (match env f with
       | .missing => st
       | .openFail => st
       | .appendFail =>
          { st with temps := st.temps ++ [tempName f], files := tempName f :: st.files }
       | .ok =>
          { processed := st.processed + 1,
            highlighted := st.highlighted +
              (rows.filter (fun r => decide (r.filename = f))).length,
            temps := st.temps ++ [tempName f],
            files := tempName f :: st.files })

/-- Models `highlight_search_results` (CSV already loaded as `rows`): empty
results return failure before any temporary file handling; otherwise the loop
runs over the distinct filenames in order, the merged output is written iff at
least one document was processed (`writeFails` models the final write raising),
and the `finally` block removes the tracked temporary files and then every
working-directory file matching `_tmp_*.pdf`. -/
def highlight_search_results (rows : List TextRow) (env : Str → DocOutcome)
    (writeFails : Bool) (output_pdf_path : Str) (fs0 : List Str) :
    Except Unit (Option (Str × ℕ × ℕ)) × List Str :=
  if rows = [] then (.ok none, fs0)
  else
    let files := pdDedup (rows.map (fun r => r.filename))
    let st := render_loop rows env files ⟨0, 0, [], fs0⟩
    let res : Except Unit (Option (Str × ℕ × ℕ)) :=
      if 0 < st.processed then
        (if writeFails then .error () else .ok (some (output_pdf_path, st.processed, st.highlighted)))
      else .ok none
    let files1 := if 0 < st.processed ∧ writeFails = false
      then output_pdf_path :: st.files else st.files
    let cleaned := (files1.filter (fun g => decide (g ∉ st.temps))).filter
      (fun g => !isTmpName g)
    (res, cleaned)

/-- Follows the claim's words for the final ordering, for comparison with the
code: primary key source document identity, then page date ascending, then
page sequence ascending (the matched term, the final tie-break, is constant in
a single-term result). -/
def claimedOrderKey (m : SearchMatch) : (Str ×ₗ (ℤ ×ₗ ℤ)) :=
  toLex (m.row.filename, toLex (m.row.date, m.row.page_number))

/-- The order the claim says the final match collection carries. -/
def claimedOrderLe (a b : SearchMatch) : Prop := claimedOrderKey a ≤ claimedOrderKey b

instance : DecidableRel claimedOrderLe :=
  fun a b => inferInstanceAs (Decidable (claimedOrderKey a ≤ claimedOrderKey b))

/-- The distinct source documents of the result set that the environment can
fully process. -/
def okFiles (rows : List TextRow) (env : Str → DocOutcome) : List Str :=
  (pdDedup (rows.map (fun r => r.filename))).filter
    (fun f => decide (env f = DocOutcome.ok))

/-- Total number of highlights over the processable documents. -/
def totalHighlights (rows : List TextRow) (env : Str → DocOutcome) : ℕ :=
  ((okFiles rows env).map
    (fun f => (rows.filter (fun r => decide (r.filename = f))).length)).sum

/-- Corpus row for the C1 witness. -/
def rowC1 : TextRow :=
  { filename := ("a.pdf").toList, page_number := 1,
    text := ("the rain in spain").toList,
    bbx0 := 10, bby0 := 20, bbx1 := 110, bby1 := 40, date := 100 }

/-- Corpus rows for the C4 witness. -/
def rowC4a : TextRow :=
  { filename := ("f.pdf").toList, page_number := 1, text := ("the rain").toList,
    bbx0 := 0, bby0 := 0, bbx1 := 10, bby1 := 10, date := 1 }

/-- Second corpus row for the C4 witness: a negation occurrence on another
document. -/
def rowC4b : TextRow :=
  { filename := ("g.pdf").toList, page_number := 1, text := ("bad stuff").toList,
    bbx0 := 3, bby0 := 4, bbx1 := 10, bby1 := 10, date := 1 }

/-- Corpus rows for the C5 witness: page A carries both terms, page B only one. -/
def rowC5a1 : TextRow :=
  { filename := ("A.pdf").toList, page_number := 1, text := ("alpha here").toList,
    bbx0 := 0, bby0 := 0, bbx1 := 1, bby1 := 1, date := 1 }

/-- Second row of page A for the C5 witness. -/
def rowC5a2 : TextRow :=
  { filename := ("A.pdf").toList, page_number := 1, text := ("beta there").toList,
    bbx0 := 2, bby0 := 2, bbx1 := 3, bby1 := 3, date := 1 }

/-- The page-B row for the C5 witness. -/
def rowC5b1 : TextRow :=
  { filename := ("B.pdf").toList, page_number := 1, text := ("alpha only").toList,
    bbx0 := 0, bby0 := 0, bbx1 := 1, bby1 := 1, date := 2 }

/-- Corpus row for the C7 counterexample: `rainy` contains `rain` as a
substring and scores 89 fuzzily, but is not a whole-word occurrence. -/
def rowC7 : TextRow :=
  { filename := ("f.pdf").toList, page_number := 1, text := ("rainy spain").toList,
    bbx0 := 0, bby0 := 0, bbx1 := 1, bby1 := 1, date := 3 }

/-- Corpus row for the C7 amended witness: whole-word occurrences of both
terms. -/
def rowC7w : TextRow :=
  { filename := ("f.pdf").toList, page_number := 1, text := ("rain spain").toList,
    bbx0 := 0, bby0 := 0, bbx1 := 1, bby1 := 1, date := 3 }

/-- Result row for the C8 witness. -/
def rowC8 : TextRow :=
  { filename := ("a.pdf").toList, page_number := 1, text := ("x").toList,
    bbx0 := 0, bby0 := 0, bbx1 := 1, bby1 := 1, date := 1 }

/-- First corpus row for the C9 theorems: the term match. -/
def rowC9a : TextRow :=
  { filename := ("f.pdf").toList, page_number := 1, text := ("alpha").toList,
    bbx0 := 0, bby0 := 0, bbx1 := 1, bby1 := 1, date := 1 }

/-- Second corpus row for the C9 counterexample: a negation occurrence on a
different document. -/
def rowC9b : TextRow :=
  { filename := ("g.pdf").toList, page_number := 1, text := ("bad thing").toList,
    bbx0 := 0, bby0 := 0, bbx1 := 1, bby1 := 1, date := 1 }

/-- Row for the C9 amended witness: a negation occurrence on the same document
as the match. -/
def rowC9c : TextRow :=
  { filename := ("f.pdf").toList, page_number := 2, text := ("bad thing").toList,
    bbx0 := 0, bby0 := 0, bbx1 := 1, bby1 := 1, date := 1 }

/-- Result row for the C10 witness. -/
def rowC10 : TextRow :=
  { filename := ("a.pdf").toList, page_number := 1, text := ("x").toList,
    bbx0 := 0, bby0 := 0, bbx1 := 1, bby1 := 1, date := 1 }

/-! Basic lemmas about the scoring model. -/
theorem splitRunsAux_snd_ne_nil (p : Char → Bool) (s : Str) :
    ∀ w ∈ (splitRunsAux p s).2, w ≠ [] := by
  induction s with
  | nil => intro w hw; simp [splitRunsAux] at hw
  | cons c rest ih =>
    intro w hw
    simp only [splitRunsAux] at hw
    by_cases hc : p c
    · simp [hc] at hw
      exact ih w hw
    · simp [hc] at hw
      by_cases h1 : (splitRunsAux p rest).1 = []
      · simp [h1] at hw
        exact ih w hw
      · simp [h1] at hw
        rcases hw with hw | hw
        · exact hw ▸ h1
        · exact ih w hw

theorem splitRuns_ne_nil (p : Char → Bool) (s : Str) :
    ∀ w ∈ splitRuns p s, w ≠ [] := by
  intro w hw
  simp only [splitRuns] at hw
  by_cases h1 : (splitRunsAux p s).1 = []
  · simp [h1] at hw
    exact splitRunsAux_snd_ne_nil p s w hw
  · simp [h1] at hw
    rcases hw with hw | hw
    · exact hw ▸ h1
    · exact splitRunsAux_snd_ne_nil p s w hw

theorem indelDist_self (a : Str) : indelDist a a = 0 := by
  induction a with
  | nil => simp [indelDist]
  | cons c cs ih =>
    simp only [indelDist] at ih ⊢
    rw [levenshtein_cons_cons]
    have hs : indelCost.substitute c c = 0 := by simp [indelCost]
    rw [hs, ih]
    refine Nat.le_zero.mp ?_
    calc _ ≤ 0 + 0 := le_trans inf_le_right inf_le_right
    _ = 0 := by simp

theorem indelDist_nil_right (a : Str) : indelDist a [] = a.length := by
  induction a with
  | nil => simp [indelDist]
  | cons c cs ih =>
    simp only [indelDist] at ih ⊢
    have hd : indelCost.delete c = 1 := rfl
    rw [levenshtein_cons_nil, ih, hd, List.length_cons]
    omega

theorem indelDist_nil_left (b : Str) : indelDist [] b = b.length := by
  induction b with
  | nil => simp [indelDist]
  | cons c cs ih =>
    simp only [indelDist] at ih ⊢
    have hd : indelCost.insert c = 1 := rfl
    rw [levenshtein_nil_cons, ih, hd, List.length_cons]
    omega

theorem indelDist_le (a b : Str) : indelDist a b ≤ a.length + b.length := by
  induction a generalizing b with
  | nil => simp [indelDist_nil_left]
  | cons x xs ih =>
    cases b with
    | nil => simp [indelDist_nil_right]
    | cons y ys =>
      have h3 : indelDist (x :: xs) (y :: ys) ≤
          indelCost.substitute x y + indelDist xs ys := by
        simp only [indelDist, levenshtein_cons_cons]
        exact le_trans inf_le_right inf_le_right
      have hsub : indelCost.substitute x y ≤ 2 := by
        simp only [indelCost]
        split <;> omega
      have := ih ys
      simp only [List.length_cons]
      omega

theorem bankersDiv_le_100 {a b : ℕ} (hb : 0 < b) (h : a ≤ 100 * b) :
    bankersDiv a b ≤ 100 := by
  have hq : a / b ≤ 100 := by
    have := Nat.div_le_div_right (c := b) h
    rwa [Nat.mul_div_cancel 100 hb] at this
  have hmod := Nat.div_add_mod a b
  unfold bankersDiv
  split
  · exact hq
  · split
    · rename_i h1 h2
      have hr : 0 < a % b := by omega
      have hq99 : a / b < 100 := by
        by_contra hc
        push_neg at hc
        have h100 : a / b = 100 := le_antisymm hq hc
        rw [h100] at hmod
        omega
      omega
    · split
      · exact hq
      · rename_i h1 h2 h3
        have : a / b ≠ 100 := by
          intro hc
          rw [hc] at h3
          omega
        omega

theorem fuzzRatioRounded_le_100 (a b : Str) : fuzzRatioRounded a b ≤ 100 := by
  unfold fuzzRatioRounded
  split
  · exact le_refl 100
  · rename_i h
    exact bankersDiv_le_100 (by omega) (Nat.mul_le_mul_left 100 (Nat.sub_le _ _))

theorem fuzzRatioRounded_self {a : Str} (h : a ≠ []) : fuzzRatioRounded a a = 100 := by
  have hlen : 0 < a.length := List.length_pos.mpr h
  unfold fuzzRatioRounded
  rw [indelDist_self]
  have hs : a.length + a.length ≠ 0 := by omega
  rw [if_neg hs, Nat.sub_zero]
  unfold bankersDiv
  rw [Nat.mul_mod_left, Nat.mul_div_cancel 100 (by omega)]
  have hpos : 0 < a.length + a.length := by omega
  simp [hpos]

theorem le_foldr_max {l : List ℕ} {a : ℕ} (h : a ∈ l) : a ≤ l.foldr max 0 := by
  induction l with
  | nil => simp at h
  | cons x xs ih =>
    rcases List.mem_cons.mp h with rfl | h
    · exact le_max_left _ _
    · exact le_trans (ih h) (le_max_right _ _)

theorem foldr_max_le {l : List ℕ} {n : ℕ} (h : ∀ a ∈ l, a ≤ n) : l.foldr max 0 ≤ n := by
  induction l with
  | nil => simp
  | cons x xs ih =>
    simp only [List.foldr_cons]
    exact max_le (h x (List.mem_cons_self x xs)) (ih fun a ha => h a (List.mem_cons_of_mem x ha))

/-- The early `clean_search in words` shortcut of `word_level_similarity` is
redundant: the returned value is always the maximum of the rounded per-word
rapidfuzz scores (0 when the span has no words). -/
theorem word_level_similarity_eq_max (search_term text : Str) :
    word_level_similarity search_term text =
      ((pySplit (lowerStr (clean_text text))).map
        (fun w => fuzzRatioRounded (lowerStr (clean_text search_term)) w)).foldr max 0 := by
  simp only [word_level_similarity]
  by_cases hmem : (lowerStr (clean_text search_term)) ∈ pySplit (lowerStr (clean_text text))
  · rw [if_pos hmem]
    refine (le_antisymm ?_ ?_).symm
    · exact foldr_max_le (by
        intro a ha
        obtain ⟨w, hw, rfl⟩ := List.mem_map.mp ha
        exact fuzzRatioRounded_le_100 _ _)
    · have hne : lowerStr (clean_text search_term) ≠ [] := by
        have := splitRuns_ne_nil (fun c => !c.isWhitespace) (lowerStr (clean_text text))
        exact this _ hmem
      have h100 : fuzzRatioRounded (lowerStr (clean_text search_term))
          (lowerStr (clean_text search_term)) = 100 := fuzzRatioRounded_self hne
      have : (100 : ℕ) ∈ (pySplit (lowerStr (clean_text text))).map
          (fun w => fuzzRatioRounded (lowerStr (clean_text search_term)) w) := by
        refine List.mem_map.mpr ⟨_, hmem, h100⟩
      exact le_foldr_max this
  · rw [if_neg hmem]

/-- The natural-number banker's rounding `bankersDiv` agrees with
round-half-to-even of the exact rational `a / b`. -/
theorem bankersDiv_cast {a b : ℕ} (hb : b ≠ 0) :
    (bankersDiv a b : ℤ) = roundHalfEven ((a : ℚ) / (b : ℚ)) := by
  have hb0 : (0 : ℚ) < (b : ℚ) := by
    have : 0 < b := Nat.pos_of_ne_zero hb
    exact_mod_cast this
  have hfl : ⌊(a:ℚ)/(b:ℚ)⌋ = ((a / b : ℕ) : ℤ) := by
    rw [Rat.floor_natCast_div_natCast]
    exact (Int.ofNat_div a b).symm
  have ha : (a:ℚ) = (b:ℚ) * ((a / b : ℕ) : ℚ) + ((a % b : ℕ) : ℚ) := by
    exact_mod_cast (Nat.div_add_mod a b).symm
  have hbne : (b:ℚ) ≠ 0 := ne_of_gt hb0
  have hfrac : (a:ℚ)/(b:ℚ) - (((a / b : ℕ) : ℤ) : ℚ) = ((a % b : ℕ) : ℚ)/(b:ℚ) := by
    rw [Int.cast_natCast, ha]
    field_simp
  have hlt : (((a % b : ℕ) : ℚ)/(b:ℚ) < 1/2) ↔ (2 * (a % b) < b) := by
    rw [div_lt_div_iff hb0 (by norm_num : (0:ℚ) < 2)]
    norm_cast
    omega
  have hgt : ((1:ℚ)/2 < ((a % b : ℕ) : ℚ)/(b:ℚ)) ↔ (b < 2 * (a % b)) := by
    rw [div_lt_div_iff (by norm_num : (0:ℚ) < 2) hb0]
    norm_cast
    omega
  unfold bankersDiv roundHalfEven
  rw [hfl, hfrac]
  by_cases h1 : 2 * (a % b) < b
  · rw [if_pos h1, if_pos (hlt.mpr h1)]
  · rw [if_neg h1, if_neg (fun hc => h1 (hlt.mp hc))]
    by_cases h2 : b < 2 * (a % b)
    · rw [if_pos h2, if_pos (hgt.mpr h2)]
      omega
    · rw [if_neg h2, if_neg (fun hc => h2 (hgt.mp hc))]
      by_cases h3 : a / b % 2 = 0
      · rw [if_pos h3, if_pos (by omega : ((a / b : ℕ) : ℤ) % 2 = 0)]
      · rw [if_neg h3, if_neg (by omega : ¬ ((a / b : ℕ) : ℤ) % 2 = 0)]
        omega

/-- The rounded rapidfuzz score is round-half-to-even of the exact rational
normalized Indel similarity. -/
theorem fuzzRatioRounded_cast (a b : Str) (h : a.length + b.length ≠ 0) :
    (fuzzRatioRounded a b : ℤ) =
      roundHalfEven (100 * (1 - (indelDist a b : ℚ) / ((a.length : ℚ) + (b.length : ℚ)))) := by
  unfold fuzzRatioRounded
  rw [if_neg h, bankersDiv_cast h]
  congr 1
  have hle := indelDist_le a b
  have hb0 : ((a.length : ℚ) + (b.length : ℚ)) ≠ 0 := by
    intro hc
    apply h
    exact_mod_cast hc
  push_cast [Nat.cast_sub hle]
  field_simp

theorem mem_pdDedup {α : Type} [DecidableEq α] {a : α} {l : List α} :
    a ∈ pdDedup l ↔ a ∈ l := by
  induction l with
  | nil => simp [pdDedup]
  | cons x xs ih =>
    simp only [pdDedup, List.mem_cons, List.mem_filter, decide_eq_true_eq]
    constructor
    · rintro (rfl | ⟨h, _⟩)
      · exact Or.inl rfl
      · exact Or.inr (ih.mp h)
    · rintro (rfl | h)
      · exact Or.inl rfl
      · by_cases hax : a = x
        · exact Or.inl hax
        · exact Or.inr ⟨ih.mpr h, hax⟩

/-! Lemmas about the negation filter. -/
theorem negFold_true (negDist : ℚ) (m : TextRow) (occs : List TextRow)
    (st : Bool × Option ℚ) (h : st.1 = true) :
    (occs.foldl (negStep negDist m) st).1 = true := by
  induction occs generalizing st with
  | nil => simpa using h
  | cons o os ih =>
    rw [List.foldl_cons]
    apply ih
    unfold negStep
    split
    · rfl
    · exact h

theorem hasNearbyNegation_iff (negDist : ℚ) (m : TextRow) (occs : List TextRow) :
    hasNearbyNegation negDist m occs = true ↔
      ∃ occ ∈ occs, calculate_distance_le m.bbx0 m.bby0 occ.bbx0 occ.bby0 negDist = true := by
  unfold hasNearbyNegation
  induction occs with
  | nil => simp
  | cons o os ih =>
    rw [List.foldl_cons]
    by_cases hc : calculate_distance_le m.bbx0 m.bby0 o.bbx0 o.bby0 negDist = true
    · have hstep : negStep negDist m (false, none) o =
          (true, some (distSq m.bbx0 m.bby0 o.bbx0 o.bby0)) := by
        unfold negStep
        rw [if_pos]
        rw [hc]
        rfl
      have hres : (os.foldl (negStep negDist m)
          (true, some (distSq m.bbx0 m.bby0 o.bbx0 o.bby0))).1 = true :=
        negFold_true negDist m os _ rfl
      rw [hstep, hres]
      constructor
      · intro _
        exact ⟨o, List.mem_cons_self o os, hc⟩
      · intro _
        rfl
    · have hstep : negStep negDist m (false, none) o = (false, none) := by
        unfold negStep
        rw [if_neg]
        intro hcontra
        rw [Bool.and_eq_true] at hcontra
        exact hc hcontra.1
      rw [hstep, ih]
      constructor
      · rintro ⟨occ, hocc, hle⟩
        exact ⟨occ, List.mem_cons_of_mem o hocc, hle⟩
      · rintro ⟨occ, hocc, hle⟩
        rcases List.mem_cons.mp hocc with rfl | hocc
        · exact absurd hle hc
        · exact ⟨occ, hocc, hle⟩

theorem negationFilter_nil_terms (corpus : List TextRow) (negDist : ℚ)
    (ms : List SearchMatch) : negationFilter corpus [] negDist ms = ms := by
  simp [negationFilter]

/-- A match passes the negation filter iff it is a result and no negation term
has a whole-word occurrence on the same file within the negation distance. -/
theorem mem_negationFilter {corpus : List TextRow} {negTerms : List Str}
    {negDist : ℚ} {ms : List SearchMatch} {m : SearchMatch} :
    m ∈ negationFilter corpus negTerms negDist ms ↔
      m ∈ ms ∧ ¬ ∃ t ∈ negTerms, ∃ r ∈ corpus, containsWholeWord t r.text = true ∧
        r.filename = m.row.filename ∧
        calculate_distance_le m.row.bbx0 m.row.bby0 r.bbx0 r.bby0 negDist = true := by
  have hoccs : ∀ t r, (t, r) ∈ negationOccurrences corpus negTerms ↔
      t ∈ negTerms ∧ r ∈ corpus ∧ containsWholeWord t r.text = true := by
    intro t r
    unfold negationOccurrences
    simp only [List.mem_flatMap, List.mem_map, List.mem_filter, mem_pdDedup]
    constructor
    · rintro ⟨t', ht', r', hr', heq⟩
      obtain ⟨heq1, heq2⟩ := Prod.mk.injEq .. ▸ heq
      cases heq
      exact ⟨ht', hr'.1, hr'.2⟩
    · rintro ⟨ht, hr, hw⟩
      exact ⟨t, ht, r, ⟨hr, hw⟩, rfl⟩
  unfold negationFilter
  by_cases h1 : negTerms = [] ∨ ms = []
  · rw [if_pos h1]
    rcases h1 with h1 | h1
    · subst h1
      simp
    · subst h1
      simp
  · rw [if_neg h1]
    push_neg at h1
    by_cases h2 : negationOccurrences corpus negTerms = []
    · rw [if_pos h2]
      have hnone : ¬ ∃ t ∈ negTerms, ∃ r ∈ corpus, containsWholeWord t r.text = true ∧
          r.filename = m.row.filename ∧
          calculate_distance_le m.row.bbx0 m.row.bby0 r.bbx0 r.bby0 negDist = true := by
        rintro ⟨t, ht, r, hr, hw, _, _⟩
        have : (t, r) ∈ negationOccurrences corpus negTerms := (hoccs t r).mpr ⟨ht, hr, hw⟩
        rw [h2] at this
        simp at this
      simp [hnone]
    · rw [if_neg h2]
      rw [List.mem_filter]
      constructor
      · rintro ⟨hm, hflag⟩
        refine ⟨hm, ?_⟩
        rintro ⟨t, ht, r, hr, hw, hfile, hdist⟩
        rw [Bool.not_eq_true', Bool.eq_false_iff] at hflag
        apply hflag
        rw [hasNearbyNegation_iff]
        refine ⟨r, ?_, hdist⟩
        refine List.mem_map.mpr ⟨(t, r), List.mem_filter.mpr ⟨(hoccs t r).mpr ⟨ht, hr, hw⟩, ?_⟩, rfl⟩
        exact decide_eq_true hfile
      · rintro ⟨hm, hnot⟩
        refine ⟨hm, ?_⟩
        rw [Bool.not_eq_true', Bool.eq_false_iff]
        intro hflag
        rw [hasNearbyNegation_iff] at hflag
        obtain ⟨occ, hocc, hdist⟩ := hflag
        obtain ⟨⟨t, r⟩, hp, rfl⟩ := List.mem_map.mp hocc
        obtain ⟨hpo, hfile⟩ := List.mem_filter.mp hp
        obtain ⟨ht, hr, hw⟩ := (hoccs t r).mp hpo
        exact hnot ⟨t, ht, r, hr, hw, of_decide_eq_true hfile, hdist⟩

/-! Lemmas about the single-term pipeline. -/
theorem mem_exact_stage {corpus : List TextRow} {term : Str} {m : SearchMatch} :
    m ∈ exact_stage corpus term ↔
      ∃ r ∈ corpus, containsCI term r.text = true ∧
        m = { row := r, similarity := 100, isExact := true } := by
  simp only [exact_stage, List.mem_map, List.mem_filter]
  constructor
  · rintro ⟨r, ⟨hr, hc⟩, rfl⟩
    exact ⟨r, hr, hc, rfl⟩
  · rintro ⟨r, hr, hc, rfl⟩
    exact ⟨r, ⟨hr, hc⟩, rfl⟩

theorem mem_fuzzy_stage {corpus : List TextRow} {term : Str} {thr : ℕ} {m : SearchMatch} :
    m ∈ fuzzy_stage corpus term thr ↔
      ∃ r ∈ corpus, containsCI term r.text = false ∧
        m = { row := r, similarity := word_level_similarity term r.text, isExact := false } ∧
        thr ≤ word_level_similarity term r.text := by
  simp only [fuzzy_stage, List.mem_filter, List.mem_map, decide_eq_true_eq,
    Bool.not_eq_true']
  constructor
  · rintro ⟨⟨r, ⟨hr, hc⟩, rfl⟩, hthr⟩
    exact ⟨r, hr, hc, rfl, hthr⟩
  · rintro ⟨r, hr, hc, rfl, hthr⟩
    exact ⟨⟨r, ⟨hr, hc⟩, rfl⟩, hthr⟩

theorem mem_combined_matches {corpus : List TextRow} {term : Str} {thr : ℕ} {m : SearchMatch} :
    m ∈ combined_matches corpus term thr ↔
      m ∈ exact_stage corpus term ∨ m ∈ fuzzy_stage corpus term thr := by
  unfold combined_matches
  rw [mem_pdDedup, List.mem_append]

theorem dateFilterBy_none_none {α : Type} (dateOf : α → ℤ) (l : List α) :
    dateFilterBy dateOf none none l = l := rfl

theorem search_documents_no_neg (corpus : List TextRow) (term : Str) (thr : ℕ)
    (negDist : ℚ) :
    search_documents corpus term thr [] negDist none none =
      if combined_matches corpus term thr = [] then none
      else some (List.insertionSort singleSortLe (combined_matches corpus term thr)) := by
  by_cases h : combined_matches corpus term thr = []
  · rw [if_pos h]
    unfold search_documents
    rw [negationFilter_nil_terms, if_pos h]
  · rw [if_neg h]
    unfold search_documents
    rw [negationFilter_nil_terms, if_neg h]
    rw [dateFilterBy_none_none, if_neg h]

theorem calculate_distance_le_iff_sqrt (x1 y1 x2 y2 d : ℚ) :
    calculate_distance_le x1 y1 x2 y2 d = true ↔
      Real.sqrt (((x2 : ℝ) - (x1 : ℝ))^2 + ((y2 : ℝ) - (y1 : ℝ))^2) ≤ (d : ℝ) := by
  have hcast : ((distSq x1 y1 x2 y2 : ℚ) : ℝ) =
      ((x2 : ℝ) - (x1 : ℝ))^2 + ((y2 : ℝ) - (y1 : ℝ))^2 := by
    unfold distSq
    push_cast
    ring
  have hsqnn : (0:ℝ) ≤ ((x2 : ℝ) - (x1 : ℝ))^2 + ((y2 : ℝ) - (y1 : ℝ))^2 := by positivity
  unfold calculate_distance_le
  rw [decide_eq_true_eq]
  constructor
  · rintro ⟨hd, hle⟩
    have hd2 : (0:ℝ) ≤ (d:ℝ) := by exact_mod_cast hd
    have hle2 : ((x2 : ℝ) - (x1 : ℝ))^2 + ((y2 : ℝ) - (y1 : ℝ))^2 ≤ (d:ℝ)^2 := by
      rw [← hcast]
      exact_mod_cast hle
    calc Real.sqrt (((x2 : ℝ) - (x1 : ℝ))^2 + ((y2 : ℝ) - (y1 : ℝ))^2)
        ≤ Real.sqrt ((d:ℝ)^2) := Real.sqrt_le_sqrt hle2
    _ = (d:ℝ) := Real.sqrt_sq hd2
  · intro h
    have hd2 : (0:ℝ) ≤ (d:ℝ) := le_trans (Real.sqrt_nonneg _) h
    have hd : (0:ℚ) ≤ d := by exact_mod_cast hd2
    refine ⟨hd, ?_⟩
    have h2 : (Real.sqrt (((x2 : ℝ) - (x1 : ℝ))^2 + ((y2 : ℝ) - (y1 : ℝ))^2))^2 ≤ (d:ℝ)^2 :=
      pow_le_pow_left (Real.sqrt_nonneg _) h 2
    rw [Real.sq_sqrt hsqnn, ← hcast] at h2
    exact_mod_cast h2

/-! Lemmas about the co-occurrence pipeline. -/
theorem mem_termsPresentOn {corpus : List TextRow} {terms : List Str} {f : Str}
    {p : ℤ} {t : Str} :
    t ∈ termsPresentOn corpus terms f p ↔
      (t ∈ terms ∧ ∃ r ∈ corpus, containsWholeWord t r.text = true ∧
        r.filename = f ∧ r.page_number = p) := by
  unfold termsPresentOn exactTermMatches
  rw [List.mem_filter, mem_pdDedup]
  simp only [List.any_eq_true, List.mem_filter, Bool.and_eq_true, decide_eq_true_eq]
  constructor
  · rintro ⟨ht, r, ⟨hr, hw⟩, hf, hp⟩
    exact ⟨ht, r, hr, hw, hf, hp⟩
  · rintro ⟨ht, r, hr, hw, hf, hp⟩
    exact ⟨ht, r, ⟨hr, hw⟩, hf, hp⟩

theorem mem_pagesWithAnyTerm {corpus : List TextRow} {terms : List Str} {fp : Str × ℤ} :
    fp ∈ pagesWithAnyTerm corpus terms ↔
      ∃ t ∈ terms, ∃ r ∈ corpus, containsWholeWord t r.text = true ∧
        (r.filename, r.page_number) = fp := by
  unfold pagesWithAnyTerm exactTermMatches
  rw [mem_pdDedup]
  simp only [List.mem_flatMap, mem_pdDedup, List.mem_map, List.mem_filter]
  constructor
  · rintro ⟨t, ht, r, ⟨hr, hw⟩, heq⟩
    exact ⟨t, ht, r, hr, hw, heq⟩
  · rintro ⟨t, ht, r, hr, hw, heq⟩
    exact ⟨t, ht, r, ⟨hr, hw⟩, heq⟩

theorem mem_co_matches {corpus : List TextRow} {terms : List Str} {minReq : ℕ}
    {a : CoMatch} :
    a ∈ co_matches corpus terms minReq ↔
      (a.row ∈ corpus ∧ a.search_term ∈ terms ∧
        containsWholeWord a.search_term a.row.text = true ∧
        a.coTerms = termsPresentOn corpus terms a.row.filename a.row.page_number ∧
        minReq ≤ (termsPresentOn corpus terms a.row.filename a.row.page_number).length) := by
  unfold co_matches qualifyingPages
  simp only [List.mem_flatMap, List.mem_filter, List.mem_map, Bool.and_eq_true,
    decide_eq_true_eq]
  constructor
  · rintro ⟨fp, ⟨hfpmem, hfpq⟩, t, htp, r, ⟨⟨hrm, hrcond⟩, rfl⟩⟩
    obtain ⟨hrc, hw⟩ := List.mem_filter.mp hrm
    obtain ⟨hrf, hrp⟩ := hrcond
    rw [← hrf, ← hrp] at htp hfpq ⊢
    exact ⟨hrc, (mem_termsPresentOn.mp htp).1, hw, rfl, hfpq⟩
  · rintro ⟨hrow, hterm, hw, hco, hmin⟩
    refine ⟨(a.row.filename, a.row.page_number),
      ⟨mem_pagesWithAnyTerm.mpr ⟨a.search_term, hterm, a.row, hrow, hw, rfl⟩, hmin⟩,
      a.search_term, mem_termsPresentOn.mpr ⟨hterm, a.row, hrow, hw, rfl, rfl⟩,
      a.row, ⟨⟨List.mem_filter.mpr ⟨hrow, hw⟩, rfl, rfl⟩, ?_⟩⟩
    cases a
    simp only at hco ⊢
    rw [hco]

theorem pdDedup_eq_of_nodup {α : Type} [DecidableEq α] {l : List α} (h : l.Nodup) :
    pdDedup l = l := by
  induction l with
  | nil => rfl
  | cons x xs ih =>
    rw [pdDedup, ih (List.Nodup.of_cons h)]
    congr 1
    apply List.filter_eq_self.mpr
    intro b hb
    have hx : x ∉ xs := (List.nodup_cons.mp h).1
    simp only [decide_eq_true_eq]
    intro hbx
    exact hx (hbx ▸ hb)

theorem coOcc_ok_some {corpus : List TextRow} {terms : List Str} {minReq : ℕ}
    {negTerms : List Str} {negDist : ℚ} {sd ed : Option ℤ} {l : List CoMatch}
    (h : search_documents_co_occurrence corpus terms minReq negTerms negDist sd ed =
      .ok (some l)) :
    l = List.insertionSort coSortLe
      (dateFilterBy (fun a => a.row.date) sd ed (co_matches corpus terms minReq)) := by
  simp only [search_documents_co_occurrence] at h
  split at h
  · exact Option.noConfusion (Except.ok.inj h)
  · split at h
    · exact Option.noConfusion (Except.ok.inj h)
    · split at h
      · split at h
        · exact Option.noConfusion (Except.ok.inj h)
        · split at h
          · exact Option.noConfusion (Except.ok.inj h)
          · exact (Option.some.inj (Except.ok.inj h)).symm
      · split at h
        · split at h
          · exact Option.noConfusion (Except.ok.inj h)
          · split at h
            · exact Option.noConfusion (Except.ok.inj h)
            · exact (Option.some.inj (Except.ok.inj h)).symm
        · split at h
          · exact Except.noConfusion h
          · split at h
            · exact Option.noConfusion (Except.ok.inj h)
            · split at h
              · exact Option.noConfusion (Except.ok.inj h)
              · exact (Option.some.inj (Except.ok.inj h)).symm

theorem render_loop_processed (rows : List TextRow) (env : Str → DocOutcome)
    (files : List Str) (st : RenderSt) :
    (render_loop rows env files st).processed =
      st.processed + (files.filter (fun f => decide (env f = DocOutcome.ok))).length := by
  induction files generalizing st with
  | nil => simp [render_loop]
  | cons f fs ih =>
    rw [render_loop, ih]
    cases h : env f <;> simp [h] <;> omega

theorem render_loop_highlighted (rows : List TextRow) (env : Str → DocOutcome)
    (files : List Str) (st : RenderSt) :
    (render_loop rows env files st).highlighted =
      st.highlighted + ((files.filter (fun f => decide (env f = DocOutcome.ok))).map
        (fun f => (rows.filter (fun r => decide (r.filename = f))).length)).sum := by
  induction files generalizing st with
  | nil => simp [render_loop]
  | cons f fs ih =>
    rw [render_loop, ih]
    cases h : env f <;> simp [h] <;> omega

theorem render_loop_files_src (rows : List TextRow) (env : Str → DocOutcome)
    (files : List Str) (st : RenderSt) :
    ∀ g ∈ (render_loop rows env files st).files,
      g ∈ st.files ∨ ∃ f, g = tempName f := by
  induction files generalizing st with
  | nil =>
    intro g hg
    exact Or.inl hg
  | cons f fs ih =>
    intro g hg
    rw [render_loop] at hg
    cases h : env f <;> rw [h] at hg
    · exact ih _ g hg
    · exact ih _ g hg
    · rcases ih _ g hg with hmem | hex
      · rcases List.mem_cons.mp hmem with rfl | hmem
        · exact Or.inr ⟨f, rfl⟩
        · exact Or.inl hmem
      · exact Or.inr hex
    · rcases ih _ g hg with hmem | hex
      · rcases List.mem_cons.mp hmem with rfl | hmem
        · exact Or.inr ⟨f, rfl⟩
        · exact Or.inl hmem
      · exact Or.inr hex

theorem isTmpName_tempName (f : Str) : isTmpName (tempName f) = true := by
  unfold isTmpName tempName
  rw [decide_eq_true_eq]
  refine ⟨⟨removeDotPdf ((f.map replaceSpace).filter (fun c => decide (c ≠ (',')))) ++
    ((".pdf").toList), (List.append_assoc _ _ _).symm⟩, ?_, ?_⟩
  · exact ⟨(("_tmp_").toList) ++
      removeDotPdf ((f.map replaceSpace).filter (fun c => decide (c ≠ (',')))), rfl⟩
  · simp [List.length_append]

/-! Claim theorems. -/
theorem containsCI_iff {term text : Str} :
    containsCI term text = true ↔ lowerStr term <:+: lowerStr text := by
  unfold containsCI
  exact decide_eq_true_iff

theorem reTokens_of_no_metachar {term : Str} (h : ∀ c ∈ term, reMetachar c = false) :
    reTokens term = some (term.map ReTok.lit) := by
  induction term with
  | nil => rfl
  | cons c rest ih =>
    have hc := h c (List.mem_cons_self c rest)
    have hdot : c ≠ ('.') := by
      intro hceq
      rw [hceq] at hc
      exact absurd hc (by decide)
    simp only [reTokens]
    rw [if_neg hdot, if_neg (by simp [hc]), ih (fun x hx => h x (List.mem_cons_of_mem c hx))]
    rfl

theorem reMatchPrefix_lits (term : Str) :
    ∀ s : Str, reMatchPrefix (term.map ReTok.lit) s = true ↔
      lowerStr term <+: lowerStr s := by
  induction term with
  | nil =>
    intro s
    simp [reMatchPrefix, lowerStr, List.nil_prefix]
  | cons c ts ih =>
    intro s
    cases s with
    | nil =>
      simp [reMatchPrefix, lowerStr, List.prefix_nil]
    | cons x xs =>
      simp only [List.map_cons, reMatchPrefix, Bool.and_eq_true, decide_eq_true_eq]
      rw [ih xs]
      show _ ↔ lowerStr (c :: ts) <+: lowerStr (x :: xs)
      simp only [lowerStr, List.map_cons]
      rw [List.cons_prefix_cons]
      constructor
      · rintro ⟨h1, h2⟩
        exact ⟨h1.symm, h2⟩
      · rintro ⟨h1, h2⟩
        exact ⟨h1.symm, h2⟩

theorem lowerStr_drop (s : Str) (i : ℕ) : lowerStr (s.drop i) = (lowerStr s).drop i :=
  List.map_drop Char.toLower s i

theorem reSearch_lits (term text : Str) :
    reSearch (term.map ReTok.lit) text = containsCI term text := by
  rw [Bool.eq_iff_iff, containsCI_iff]
  unfold reSearch
  rw [List.any_eq_true]
  constructor
  · rintro ⟨i, hi, hmatch⟩
    have hpre := (reMatchPrefix_lits term (text.drop i)).mp hmatch
    rw [lowerStr_drop] at hpre
    exact List.infix_iff_prefix_suffix.mpr
      ⟨(lowerStr text).drop i, hpre, List.drop_suffix i _⟩
  · intro hinf
    obtain ⟨t, hpre, hsuf⟩ := List.infix_iff_prefix_suffix.mp hinf
    obtain ⟨u, hu⟩ := hsuf
    refine ⟨u.length, ?_, ?_⟩
    · rw [List.mem_range]
      have hsum : u.length + t.length = (lowerStr text).length := by
        rw [← hu, List.length_append]
      have hlen : (lowerStr text).length = text.length := List.length_map _ _
      omega
    · apply (reMatchPrefix_lits term (text.drop u.length)).mpr
      rw [lowerStr_drop, ← hu, List.drop_left]
      exact hpre

theorem pdStrContains_eq_containsCI {term : Str}
    (h : ∀ c ∈ term, reMetachar c = false) (text : Str) :
    pdStrContains term text = some (containsCI term text) := by
  unfold pdStrContains
  rw [reTokens_of_no_metachar h]
  simp [reSearch_lits]

/-- C1 counterexample: the exact stage passes the query term to `str.contains`
unescaped under the pandas default `regex=True`, so term `.` is the
any-character wildcard: it matches span text `ab`, which does not contain `.`
as a case-insensitive substring — such a span is returned as an Exact match
with similarity 100 whose text does not contain the term, so the claim's
universal over query terms fails. -/
theorem C1_counterexample :
    pdStrContains ((".").toList) (("ab").toList) = some true ∧
    ¬ (lowerStr ((".").toList) <:+: lowerStr (("ab").toList)) := by
  refine ⟨by decide, by decide⟩

/-- C1 amended: for a query term free of regex metacharacters the unescaped
`str.contains` regex coincides with case-insensitive substring containment,
and then in `search_documents` (no negation terms, no date bounds) every
result row produced by the Exact stage has similarity 100 and a text
containing the term as a case-insensitive substring, and every corpus row
whose text contains the term as a case-insensitive substring is returned as
an Exact row with similarity 100. -/
theorem C1_exact_stage_amended (corpus : List TextRow) (term : Str) (thr : ℕ)
    (negDist : ℚ) (hterm : ∀ c ∈ term, reMetachar c = false) :
    (∀ text : Str, pdStrContains term text = some (containsCI term text))
    ∧ (∀ l, search_documents corpus term thr [] negDist none none = some l →
      ∀ m ∈ l, m.isExact = true →
        m.similarity = 100 ∧ lowerStr term <:+: lowerStr m.row.text)
    ∧ (∀ r ∈ corpus, lowerStr term <:+: lowerStr r.text →
      ∃ l, search_documents corpus term thr [] negDist none none = some l ∧
        ({ row := r, similarity := 100, isExact := true } : SearchMatch) ∈ l) := by
  refine ⟨fun text => pdStrContains_eq_containsCI hterm text, ?_, ?_⟩
  · intro l hl m hm hex
    rw [search_documents_no_neg] at hl
    by_cases hc : combined_matches corpus term thr = []
    · rw [if_pos hc] at hl
      exact Option.noConfusion hl
    · rw [if_neg hc] at hl
      have hle := Option.some.inj hl
      rw [← hle] at hm
      have hmc := (List.perm_insertionSort singleSortLe _).mem_iff.mp hm
      rcases mem_combined_matches.mp hmc with hme | hmf
      · obtain ⟨r, hr, hcont, rfl⟩ := mem_exact_stage.mp hme
        exact ⟨rfl, containsCI_iff.mp hcont⟩
      · obtain ⟨r, hr, hcont, rfl, hthr⟩ := mem_fuzzy_stage.mp hmf
        exact absurd hex (by simp)
  · intro r hr hsub
    have hm : ({ row := r, similarity := 100, isExact := true } : SearchMatch) ∈
        combined_matches corpus term thr :=
      mem_combined_matches.mpr (Or.inl (mem_exact_stage.mpr
        ⟨r, hr, containsCI_iff.mpr hsub, rfl⟩))
    have hne : combined_matches corpus term thr ≠ [] := List.ne_nil_of_mem hm
    refine ⟨List.insertionSort singleSortLe (combined_matches corpus term thr), ?_, ?_⟩
    · rw [search_documents_no_neg, if_neg hne]
    · exact (List.perm_insertionSort singleSortLe _).mem_iff.mpr hm

/-- C1 amended witness: the completeness direction at a one-row corpus and a
metacharacter-free term. -/
theorem C1_exact_stage_amended_witness :
    ∃ l, search_documents [rowC1] (("rain").toList) 80 [] 0 none none = some l ∧
      ({ row := rowC1, similarity := 100, isExact := true } : SearchMatch) ∈ l :=
  (C1_exact_stage_amended [rowC1] (("rain").toList) 80 0 (by decide)).2.2 rowC1
    (by decide) (by decide)

/-- C2 counterexample: for term `ab` against span text `ba`, the code computes
similarity 50 (rapidfuzz normalized Indel ratio `100 * (1 - 2/4)`), while the
claimed formula `100 * (1 - distance / max(len_a, len_b, 1))` gives 0. -/
theorem C2_counterexample :
    word_level_similarity (("ab").toList) (("ba").toList) = 50 ∧
    claimedSimilarity (("ab").toList) (("ba").toList) = 0 := by
  constructor
  · decide
  · have hw : pySplit (lowerStr (clean_text (("ba").toList))) = [("ba").toList] := by
      decide
    have hcs : lowerStr (clean_text (("ab").toList)) = ("ab").toList := by decide
    have hld : levDist (("ab").toList) (("ba").toList) = 2 := by decide
    have hl1 : (("ab").toList).length = 2 := by decide
    have hl2 : (("ba").toList).length = 2 := by decide
    unfold claimedSimilarity
    rw [hw, hcs]
    simp only [List.map_cons, List.map_nil, List.foldr_cons, List.foldr_nil]
    unfold claimedWordScore
    rw [hld, hl1, hl2]
    norm_num

/-- C2 amended: the fuzzy similarity is the maximum over the normalized span's
words of the rounded rapidfuzz score; that rounded score is round-half-to-even
of `100 * (1 - indel_distance / (len_a + len_b))`, the normalized Indel
similarity (not `distance / max(len_a, len_b, 1)`); and a span not exact-matched
is returned by the fuzzy stage iff this similarity reaches the threshold. -/
theorem C2_amended (term text : Str) (corpus : List TextRow) (thr : ℕ) (a b : Str)
    (r : TextRow) :
    (word_level_similarity term text =
      ((pySplit (lowerStr (clean_text text))).map
        (fun w => fuzzRatioRounded (lowerStr (clean_text term)) w)).foldr max 0)
    ∧ (a.length + b.length ≠ 0 →
      (fuzzRatioRounded a b : ℤ) =
        roundHalfEven (100 * (1 - (indelDist a b : ℚ) / ((a.length : ℚ) + (b.length : ℚ)))))
    ∧ (({ row := r, similarity := word_level_similarity term r.text, isExact := false } :
          SearchMatch) ∈ fuzzy_stage corpus term thr ↔
        (r ∈ corpus ∧ containsCI term r.text = false ∧
          thr ≤ word_level_similarity term r.text)) := by
  refine ⟨word_level_similarity_eq_max term text, fuzzRatioRounded_cast a b, ?_⟩
  rw [mem_fuzzy_stage]
  constructor
  · rintro ⟨r2, hr2, hc2, heq, hthr⟩
    have hrr : r = r2 := congrArg SearchMatch.row heq
    subst hrr
    exact ⟨hr2, hc2, hthr⟩
  · rintro ⟨hr, hc, hthr⟩
    exact ⟨r, hr, hc, rfl, hthr⟩

/-- C2 amended witness: the corrected formula instantiated at `ab`, `ba`. -/
theorem C2_amended_witness :
    (fuzzRatioRounded (("ab").toList) (("ba").toList) : ℤ) =
      roundHalfEven (100 * (1 - (indelDist (("ab").toList) (("ba").toList) : ℚ) /
        (((("ab").toList).length : ℚ) + ((("ba").toList).length : ℚ)))) :=
  ((C2_amended [] [] [] 0 (("ab").toList) (("ba").toList)
    { filename := [], page_number := 0, text := [], bbx0 := 0, bby0 := 0,
      bbx1 := 0, bby1 := 0, date := 0 }).2.1) (by decide)

/-- C3: a match passes the negation filter of `search_documents` iff no
negation term has a case-insensitive whole-word occurrence on the same source
document whose anchor lies within Euclidean distance `negation_distance` of the
match's anchor; with no negation terms the match list passes unchanged. -/
theorem C3_negation_filter (corpus : List TextRow) (negTerms : List Str)
    (negDist : ℚ) (ms : List SearchMatch) (m : SearchMatch) :
    (m ∈ negationFilter corpus negTerms negDist ms ↔
      m ∈ ms ∧ ¬ ∃ t ∈ negTerms, ∃ r ∈ corpus, containsWholeWord t r.text = true ∧
        r.filename = m.row.filename ∧
        Real.sqrt (((r.bbx0 : ℝ) - (m.row.bbx0 : ℝ))^2 +
          ((r.bby0 : ℝ) - (m.row.bby0 : ℝ))^2) ≤ (negDist : ℝ))
    ∧ negationFilter corpus [] negDist ms = ms := by
  constructor
  · rw [mem_negationFilter]
    simp only [calculate_distance_le_iff_sqrt]
  · exact negationFilter_nil_terms corpus negDist ms

/-- C4: the kept-match set of the negation filter is antitone in the negation
distance. -/
theorem C4_negation_antitone (corpus : List TextRow) (term : Str) (thr : ℕ)
    (negTerms : List Str) (d1 d2 : ℚ) (hd : d1 ≤ d2) (m : SearchMatch)
    (hm : m ∈ negationFilter corpus negTerms d2 (combined_matches corpus term thr)) :
    m ∈ negationFilter corpus negTerms d1 (combined_matches corpus term thr) := by
  rw [mem_negationFilter] at hm ⊢
  rcases hm with ⟨hmem, hnot⟩
  refine ⟨hmem, ?_⟩
  rintro ⟨t, ht, r, hr, hw, hf, hdist⟩
  apply hnot
  refine ⟨t, ht, r, hr, hw, hf, ?_⟩
  unfold calculate_distance_le at hdist ⊢
  rw [decide_eq_true_eq] at hdist ⊢
  obtain ⟨hd1, hsq⟩ := hdist
  exact ⟨le_trans hd1 hd, le_trans hsq (pow_le_pow_left hd1 hd 2)⟩

/-- C4 witness: a match kept at distance 2 is still kept at distance 1. -/
theorem C4_negation_antitone_witness :
    ({ row := rowC4a, similarity := 100, isExact := true } : SearchMatch) ∈
      negationFilter [rowC4a, rowC4b] [("bad").toList] 1
        (combined_matches [rowC4a, rowC4b] (("rain").toList) 80) :=
  C4_negation_antitone [rowC4a, rowC4b] (("rain").toList) 80 [("bad").toList] 1 2
    (by decide) _ (by decide)

/-- C5: with no negation terms and no date bounds, a row-term pair appears in
the co-occurrence output iff the page's distinct present-term count reaches
`min_terms_required`, the row whole-word-matches the term, and the row is
annotated with the page's full distinct-term set; when the terms are distinct
and `min_terms_required` equals their number, qualification is exactly the
strict-AND condition that every query term has a match on the page. -/
theorem C5_co_occurrence (corpus : List TextRow) (terms : List Str) (minReq : ℕ)
    (hmr : minReq ≤ terms.length) :
    (∀ l, search_documents_co_occurrence corpus terms minReq [] 0 none none =
        .ok (some l) →
      ∀ a, a ∈ l ↔
        (a.row ∈ corpus ∧ a.search_term ∈ terms ∧
          containsWholeWord a.search_term a.row.text = true ∧
          a.coTerms = termsPresentOn corpus terms a.row.filename a.row.page_number ∧
          minReq ≤ (termsPresentOn corpus terms a.row.filename a.row.page_number).length))
    ∧ (terms.Nodup → minReq = terms.length →
      ∀ a, a ∈ co_matches corpus terms minReq ↔
        (a.row ∈ corpus ∧ a.search_term ∈ terms ∧
          containsWholeWord a.search_term a.row.text = true ∧
          a.coTerms = termsPresentOn corpus terms a.row.filename a.row.page_number ∧
          ∀ t ∈ terms, ∃ r ∈ corpus, containsWholeWord t r.text = true ∧
            r.filename = a.row.filename ∧ r.page_number = a.row.page_number)) := by
  constructor
  · intro l hl a
    have hshape := coOcc_ok_some hl
    rw [dateFilterBy_none_none] at hshape
    subst hshape
    rw [(List.perm_insertionSort coSortLe _).mem_iff, mem_co_matches]
  · intro hnd hml a
    rw [mem_co_matches]
    have hkey : (minReq ≤
        (termsPresentOn corpus terms a.row.filename a.row.page_number).length) ↔
        (∀ t ∈ terms, ∃ r ∈ corpus, containsWholeWord t r.text = true ∧
          r.filename = a.row.filename ∧ r.page_number = a.row.page_number) := by
      subst hml
      unfold termsPresentOn
      rw [pdDedup_eq_of_nodup hnd]
      constructor
      · intro hlen t ht
        have hle := List.length_filter_le (fun t => (exactTermMatches corpus t).any
          (fun r => decide (r.filename = a.row.filename) &&
            decide (r.page_number = a.row.page_number))) terms
        have heq : (terms.filter (fun t => (exactTermMatches corpus t).any
            (fun r => decide (r.filename = a.row.filename) &&
              decide (r.page_number = a.row.page_number)))).length = terms.length :=
          le_antisymm hle hlen
        have hp := List.filter_length_eq_length.mp heq t ht
        simp only [List.any_eq_true, Bool.and_eq_true, decide_eq_true_eq] at hp
        obtain ⟨r, hr, hf, hpg⟩ := hp
        obtain ⟨hrc, hw⟩ := List.mem_filter.mp hr
        exact ⟨r, hrc, hw, hf, hpg⟩
      · intro hall
        have hfil : ∀ t ∈ terms, ((exactTermMatches corpus t).any
            (fun r => decide (r.filename = a.row.filename) &&
              decide (r.page_number = a.row.page_number))) = true := by
          intro t ht
          obtain ⟨r, hrc, hw, hf, hpg⟩ := hall t ht
          simp only [List.any_eq_true, Bool.and_eq_true, decide_eq_true_eq]
          exact ⟨r, List.mem_filter.mpr ⟨hrc, hw⟩, hf, hpg⟩
        rw [List.filter_length_eq_length.mpr hfil]
    rw [hkey]

/-- C5 witness: with two terms and `min_terms_required = 2`, only page A's
matches appear. -/
theorem C5_co_occurrence_witness :
    ({ row := rowC5a1, search_term := ("alpha").toList,
       coTerms := [("alpha").toList, ("beta").toList] } : CoMatch) ∈
      [({ row := rowC5a1, search_term := ("alpha").toList,
          coTerms := [("alpha").toList, ("beta").toList] } : CoMatch),
       ({ row := rowC5a2, search_term := ("beta").toList,
          coTerms := [("alpha").toList, ("beta").toList] } : CoMatch)] :=
  ((C5_co_occurrence [rowC5a1, rowC5a2, rowC5b1]
      [("alpha").toList, ("beta").toList] 2 (by decide)).1
    _ (by decide) _).mpr (by decide)

/-- C6 counterexample: on this two-document corpus the single-term pipeline
returns the `b.pdf` match (earlier date) before the `a.pdf` match, so the
returned collection is not ordered by the claimed primary key, source document
identity. -/
theorem C6_counterexample :
    search_documents
        [{ filename := ("b.pdf").toList, page_number := 1, text := ("rain b").toList,
           bbx0 := 0, bby0 := 0, bbx1 := 1, bby1 := 1, date := 5 },
         { filename := ("a.pdf").toList, page_number := 1, text := ("rain a").toList,
           bbx0 := 0, bby0 := 0, bbx1 := 1, bby1 := 1, date := 9 }]
        (("rain").toList) 80 [] 0 none none =
      some [{ row := { filename := ("b.pdf").toList, page_number := 1,
                       text := ("rain b").toList, bbx0 := 0, bby0 := 0, bbx1 := 1,
                       bby1 := 1, date := 5 },
              similarity := 100, isExact := true },
            { row := { filename := ("a.pdf").toList, page_number := 1,
                       text := ("rain a").toList, bbx0 := 0, bby0 := 0, bbx1 := 1,
                       bby1 := 1, date := 9 },
              similarity := 100, isExact := true }] ∧
    ¬ claimedOrderLe
        { row := { filename := ("b.pdf").toList, page_number := 1,
                   text := ("rain b").toList, bbx0 := 0, bby0 := 0, bbx1 := 1,
                   bby1 := 1, date := 5 },
          similarity := 100, isExact := true }
        { row := { filename := ("a.pdf").toList, page_number := 1,
                   text := ("rain a").toList, bbx0 := 0, bby0 := 0, bbx1 := 1,
                   bby1 := 1, date := 9 },
          similarity := 100, isExact := true } := by
  constructor
  · decide
  · decide

/-- C6 amended: the single-term output is sorted by page date then page number
(source document identity is not a key), and the co-occurrence output is sorted
by filename, page number, distinct-term count descending, then term (page date
is not a key); both orders are deterministic functions of the input, with
key-ties left in implementation order. -/
theorem C6_amended :
    (∀ (corpus : List TextRow) (term : Str) (thr : ℕ) (negTerms : List Str)
      (negDist : ℚ) (sd ed : Option ℤ) (l : List SearchMatch),
      search_documents corpus term thr negTerms negDist sd ed = some l →
        l.Sorted singleSortLe)
    ∧ (∀ (corpus : List TextRow) (terms : List Str) (minReq : ℕ)
      (negTerms : List Str) (negDist : ℚ) (sd ed : Option ℤ) (l : List CoMatch),
      search_documents_co_occurrence corpus terms minReq negTerms negDist sd ed =
        .ok (some l) → l.Sorted coSortLe) := by
  constructor
  · intro corpus term thr negTerms negDist sd ed l h
    simp only [search_documents] at h
    split at h
    · exact Option.noConfusion h
    · split at h
      · exact Option.noConfusion h
      · have := Option.some.inj h
        rw [← this]
        exact List.sorted_insertionSort singleSortLe _
  · intro corpus terms minReq negTerms negDist sd ed l h
    have hshape := coOcc_ok_some h
    rw [hshape]
    exact List.sorted_insertionSort coSortLe _

/-- C6 amended witness: the sortedness of a concrete single-term output. -/
theorem C6_amended_witness :
    ([{ row := { filename := ("b.pdf").toList, page_number := 1,
                 text := ("rain b").toList, bbx0 := 0, bby0 := 0, bbx1 := 1,
                 bby1 := 1, date := 5 },
        similarity := 100, isExact := true },
      { row := { filename := ("a.pdf").toList, page_number := 1,
                 text := ("rain a").toList, bbx0 := 0, bby0 := 0, bbx1 := 1,
                 bby1 := 1, date := 9 },
        similarity := 100, isExact := true }] : List SearchMatch).Sorted
      singleSortLe :=
  C6_amended.1
    [{ filename := ("b.pdf").toList, page_number := 1, text := ("rain b").toList,
       bbx0 := 0, bby0 := 0, bbx1 := 1, bby1 := 1, date := 5 },
     { filename := ("a.pdf").toList, page_number := 1, text := ("rain a").toList,
       bbx0 := 0, bby0 := 0, bbx1 := 1, bby1 := 1, date := 9 }]
    (("rain").toList) 80 [] 0 none none _ (by decide)

/-- C7 counterexample: the span satisfies term `rain` under the claimed Exact
stage (case-insensitive substring) and under the claimed Fuzzy stage
(similarity 89 at threshold 80), yet the multi-term engine's output holds no
Match record for `rain` — only the whole-word `spain` record. -/
theorem C7_counterexample :
    search_documents_co_occurrence [rowC7] [("rain").toList, ("spain").toList] 1
        [] 0 none none =
      .ok (some [{ row := rowC7, search_term := ("spain").toList,
                   coTerms := [("spain").toList] }]) ∧
    containsCI (("rain").toList) rowC7.text = true ∧
    80 ≤ word_level_similarity (("rain").toList) rowC7.text := by
  refine ⟨by decide, by decide, by decide⟩

/-- C7 amended: the multi-term engine runs only a case-insensitive whole-word
exact stage, independently per term (no substring test, no fuzzy stage): every
output record arises from a whole-word occurrence of its term, and every
(row, term) pair with a whole-word occurrence on a qualifying page yields its
own record — so a span matching several terms yields one distinct record per
term. -/
theorem C7_amended (corpus : List TextRow) (terms : List Str) (minReq : ℕ)
    (l : List CoMatch)
    (hl : search_documents_co_occurrence corpus terms minReq [] 0 none none =
      .ok (some l)) :
    (∀ a ∈ l, containsWholeWord a.search_term a.row.text = true ∧ a.search_term ∈ terms)
    ∧ (∀ r t, r ∈ corpus → t ∈ terms → containsWholeWord t r.text = true →
        minReq ≤ (termsPresentOn corpus terms r.filename r.page_number).length →
        ({ row := r, search_term := t,
           coTerms := termsPresentOn corpus terms r.filename r.page_number } :
          CoMatch) ∈ l) := by
  have hshape := coOcc_ok_some hl
  rw [dateFilterBy_none_none] at hshape
  subst hshape
  constructor
  · intro a ha
    have hmem := (List.perm_insertionSort coSortLe _).mem_iff.mp ha
    have hm := mem_co_matches.mp hmem
    exact ⟨hm.2.2.1, hm.2.1⟩
  · intro r t hr ht hw hq
    apply (List.perm_insertionSort coSortLe _).mem_iff.mpr
    exact mem_co_matches.mpr ⟨hr, ht, hw, rfl, hq⟩

/-- C7 amended witness: a span matching two terms yields a record for each. -/
theorem C7_amended_witness :
    ({ row := rowC7w, search_term := ("rain").toList,
       coTerms := [("rain").toList, ("spain").toList] } : CoMatch) ∈
      [({ row := rowC7w, search_term := ("rain").toList,
          coTerms := [("rain").toList, ("spain").toList] } : CoMatch),
       ({ row := rowC7w, search_term := ("spain").toList,
          coTerms := [("rain").toList, ("spain").toList] } : CoMatch)] :=
  (C7_amended [rowC7w] [("rain").toList, ("spain").toList] 1 _ (by decide)).2
    rowC7w (("rain").toList) (by decide) (by decide) (by decide) (by decide)

/-- C8: the renderer skips failing documents without aborting: it returns
failure (no output path) iff no source document was fully processed, otherwise
it returns the output path with the processed-page and highlight counts; and on
failure it writes nothing new to the working directory. -/
theorem C8_renderer (rows : List TextRow) (env : Str → DocOutcome) (out : Str)
    (fs0 : List Str) :
    ((highlight_search_results rows env false out fs0).1 = .ok none ↔
      okFiles rows env = [])
    ∧ (okFiles rows env ≠ [] →
      (highlight_search_results rows env false out fs0).1 =
        .ok (some (out, (okFiles rows env).length, totalHighlights rows env)))
    ∧ (okFiles rows env = [] →
      ∀ g ∈ (highlight_search_results rows env false out fs0).2, g ∈ fs0) := by
  by_cases hrows : rows = []
  · subst hrows
    have hok : okFiles [] env = [] := rfl
    refine ⟨?_, ?_, ?_⟩
    · constructor
      · intro _
        exact hok
      · intro _
        rfl
    · intro h
      exact absurd hok h
    · intro _ g hg
      simpa [highlight_search_results] using hg
  · have hproc : (render_loop rows env (pdDedup (rows.map (fun r => r.filename)))
        ⟨0, 0, [], fs0⟩).processed = (okFiles rows env).length := by
      rw [render_loop_processed]
      simp [okFiles]
    have hhigh : (render_loop rows env (pdDedup (rows.map (fun r => r.filename)))
        ⟨0, 0, [], fs0⟩).highlighted = totalHighlights rows env := by
      rw [render_loop_highlighted]
      simp [totalHighlights, okFiles]
    refine ⟨?_, ?_, ?_⟩
    · simp only [highlight_search_results, if_neg hrows]
      rw [hproc]
      by_cases hp : 0 < (okFiles rows env).length
      · rw [if_pos hp]
        simp only [Bool.false_eq_true, if_false]
        constructor
        · intro h
          exact absurd h (by simp)
        · intro h
          rw [h] at hp
          simp at hp
      · rw [if_neg hp]
        constructor
        · intro _
          have hz : (okFiles rows env).length = 0 := by omega
          exact List.length_eq_zero.mp hz
        · intro _
          rfl
    · intro hne
      simp only [highlight_search_results, if_neg hrows]
      rw [hproc, hhigh]
      have hp : 0 < (okFiles rows env).length := List.length_pos.mpr hne
      rw [if_pos hp]
      simp
    · intro hok g hg
      simp only [highlight_search_results, if_neg hrows] at hg
      rw [hproc, hok] at hg
      simp only [List.length_nil, lt_self_iff_false, false_and, if_false] at hg
      have hg2 := List.mem_filter.mp hg
      have hg3 := List.mem_filter.mp hg2.1
      rcases render_loop_files_src rows env _ _ g hg3.1 with hmem | ⟨f, rfl⟩
      · exact hmem
      · have hbad := hg2.2
        rw [isTmpName_tempName] at hbad
        simp at hbad

/-- C8 witness: one processable document yields a successful render. -/
theorem C8_renderer_witness :
    (highlight_search_results [rowC8] (fun _ => DocOutcome.ok) false
      (("out.pdf").toList) []).1 =
      .ok (some ((("out.pdf").toList),
        (okFiles [rowC8] (fun _ => DocOutcome.ok)).length,
        totalHighlights [rowC8] (fun _ => DocOutcome.ok))) :=
  (C8_renderer [rowC8] (fun _ => DocOutcome.ok) (("out.pdf").toList) []).2.1
    (by decide)

/-- C9 counterexample: the negation term occurs in the corpus and the
pre-negation result set is non-empty, yet the co-occurrence search returns a
result instead of raising `NameError`, because the occurrence lies on a
different source document and the loop never reaches `calculate_distance`. -/
theorem C9_counterexample :
    search_documents_co_occurrence [rowC9a, rowC9b] [("alpha").toList] 1
        [("bad").toList] 1000 none none =
      .ok (some [{ row := rowC9a, search_term := ("alpha").toList,
                   coTerms := [("alpha").toList] }]) ∧
    (∃ r ∈ [rowC9a, rowC9b], containsWholeWord (("bad").toList) r.text = true) ∧
    co_matches [rowC9a, rowC9b] [("alpha").toList] 1 ≠ [] := by
  refine ⟨by decide, by decide, by decide⟩

/-- C9 amended: the co-occurrence search raises the unhandled `NameError` iff
some pre-negation result row shares its source document with some negation-term
occurrence (then the loop reaches the undefined `calculate_distance`);
otherwise it completes without error. -/
theorem C9_amended (corpus : List TextRow) (terms : List Str) (minReq : ℕ)
    (negTerms : List Str) (negDist : ℚ) (sd ed : Option ℤ)
    (hmr : minReq ≤ terms.length) :
    (search_documents_co_occurrence corpus terms minReq negTerms negDist sd ed =
        .error PyRunError.nameError ↔
      ∃ a ∈ co_matches corpus terms minReq,
        ∃ p ∈ negationOccurrences corpus negTerms, p.2.filename = a.row.filename) := by
  simp only [search_documents_co_occurrence]
  rw [if_neg (not_lt.mpr hmr)]
  by_cases hq : qualifyingPages corpus terms minReq = []
  · rw [if_pos hq]
    constructor
    · intro h
      exact Except.noConfusion h
    · rintro ⟨a, ha, _⟩
      unfold co_matches at ha
      rw [hq] at ha
      simp at ha
  · rw [if_neg hq]
    by_cases hng : negTerms = [] ∨ co_matches corpus terms minReq = []
    · rw [if_pos hng]
      constructor
      · intro h
        split at h
        · exact Except.noConfusion h
        · split at h
          · exact Except.noConfusion h
          · exact Except.noConfusion h
      · rintro ⟨a, ha, p, hp, _⟩
        rcases hng with hng | hng
        · subst hng
          have hz : negationOccurrences corpus [] = [] := rfl
          rw [hz] at hp
          exact absurd hp (List.not_mem_nil p)
        · rw [hng] at ha
          simp at ha
    · rw [if_neg hng]
      by_cases hocc : negationOccurrences corpus negTerms = []
      · rw [if_pos hocc]
        constructor
        · intro h
          split at h
          · exact Except.noConfusion h
          · split at h
            · exact Except.noConfusion h
            · exact Except.noConfusion h
        · rintro ⟨a, ha, p, hp, _⟩
          rw [hocc] at hp
          exact absurd hp (List.not_mem_nil p)
      · rw [if_neg hocc]
        have key : ((co_matches corpus terms minReq).any
            (fun a => (negationOccurrences corpus negTerms).any
              (fun p => decide (p.2.filename = a.row.filename))) = true) ↔
            (∃ a ∈ co_matches corpus terms minReq,
              ∃ p ∈ negationOccurrences corpus negTerms,
                p.2.filename = a.row.filename) := by
          rw [List.any_eq_true]
          constructor
          · rintro ⟨a, ha, hinner⟩
            obtain ⟨p, hp, hdec⟩ := List.any_eq_true.mp hinner
            exact ⟨a, ha, p, hp, of_decide_eq_true hdec⟩
          · rintro ⟨a, ha, p, hp, heq⟩
            exact ⟨a, ha, List.any_eq_true.mpr ⟨p, hp, decide_eq_true heq⟩⟩
        by_cases hany : (co_matches corpus terms minReq).any
            (fun a => (negationOccurrences corpus negTerms).any
              (fun p => decide (p.2.filename = a.row.filename))) = true
        · rw [if_pos hany]
          constructor
          · intro _
            exact key.mp hany
          · intro _
            rfl
        · rw [if_neg hany]
          constructor
          · intro h
            split at h
            · exact Except.noConfusion h
            · split at h
              · exact Except.noConfusion h
              · exact Except.noConfusion h
          · intro hex
            exact absurd (key.mpr hex) hany

/-- C9 amended witness: a same-document negation occurrence does raise. -/
theorem C9_amended_witness :
    search_documents_co_occurrence [rowC9a, rowC9c] [("alpha").toList] 1
        [("bad").toList] 1000 none none = .error PyRunError.nameError :=
  (C9_amended [rowC9a, rowC9c] [("alpha").toList] 1 [("bad").toList] 1000
    none none (by decide)).mpr (by decide)

/-- C10 counterexample: when the result CSV is empty the function returns at
the guard before the try/finally block, so the cleanup never runs and a
pre-existing `_tmp_*.pdf` file in the working directory survives this exit
path, contrary to the claim that every exit path deletes every such file. -/
theorem C10_counterexample :
    (highlight_search_results [] (fun _ => DocOutcome.ok) false
      (("out.pdf").toList) [(("_tmp_old.pdf").toList)]).2 =
      [(("_tmp_old.pdf").toList)] ∧
    isTmpName (("_tmp_old.pdf").toList) = true := by
  refine ⟨by decide, by decide⟩

/-- C10 amended: on every exit path that reaches the processing loop (a
non-empty result CSV) — success, partial failure, or a failing final write —
the cleanup deletes every working-directory file matching `_tmp_*.pdf`,
including pre-existing files the call did not create; the empty-results early
return performs no cleanup. -/
theorem C10_amended (rows : List TextRow) (env : Str → DocOutcome)
    (writeFails : Bool) (out : Str) (fs0 : List Str) (hrows : rows ≠ [])
    (g : Str) (hg : isTmpName g = true) :
    g ∉ (highlight_search_results rows env writeFails out fs0).2 := by
  intro hmem
  simp only [highlight_search_results, if_neg hrows] at hmem
  have hflt := (List.mem_filter.mp hmem).2
  rw [hg] at hflt
  simp at hflt

/-- C10 amended witness: with a non-empty result set, a pre-existing temporary
file is removed. -/
theorem C10_amended_witness :
    (("_tmp_old.pdf").toList) ∉
      (highlight_search_results [rowC10] (fun _ => DocOutcome.ok) false
        (("out.pdf").toList) [(("_tmp_old.pdf").toList)]).2 :=
  C10_amended [rowC10] (fun _ => DocOutcome.ok) false (("out.pdf").toList)
    [(("_tmp_old.pdf").toList)] (by decide) _ (by decide)
